import Mathlib

/-!
Verification of `update_module_path.py`, a utility that rewrites the Go
module path `github.com/charmbracelet/crush` to `github.com/xinggaoya/crush`
across a source tree, runs `go mod tidy` and `go build`, and re-scans the
tree for residual occurrences of the old path.

The embedding models:
* `countOccs` / `replaceAll` — the pure text kernel of `replace_in_file`:
  `len(re.findall(re.escape(old), content))` counts non-overlapping literal
  occurrences scanning left to right, and `content.replace(old, new)`
  replaces exactly those occurrences;
* `FileIO` / `replaceInFile` — the read/decode/write behaviour of a single
  file, with the UTF-8 primary encoding and the latin-1 fallback;
* `DirF` / `goWalk` — the `os.walk` traversal with the `vendor` directory
  pruned from `dirs`;
* `Env` / `runMain` — the orchestration in `main`.
-/

/-- The old module path constant from `main` (`old_module`). -/
def oldModule : List Char := "github.com/charmbracelet/crush".toList

/-- The new module path constant from `main` (`new_module`). -/
def newModule : List Char := "github.com/xinggaoya/crush".toList

/-- Scanner underlying `countOccs`: walks the text one character at a time;
`k` is the number of characters of a previously matched occurrence still to
be skipped, so occurrences are counted non-overlapping, left to right, as
`re.findall` does with an escaped (literal) pattern. -/
def countAux (pat : List Char) : List Char → Nat → Nat
  | [], _ => 0
  | _ :: cs, k + 1 => countAux pat cs k
  | c :: cs, 0 =>
    if pat <+: (c :: cs) then 1 + countAux pat cs (pat.length - 1)
    else countAux pat cs 0

/-- Number of non-overlapping literal occurrences of `pat` in `s`, embedding
`len(re.findall(re.escape(pat), s))`.  For an empty pattern `re.findall`
returns `len(s) + 1` empty matches. -/
def countOccs (pat s : List Char) : Nat :=
  match pat with
  | [] => s.length + 1
  | _ :: _ => countAux pat s 0

/-- Scanner underlying `replaceAll`; as in `countAux`, `k` counts characters
of a matched occurrence still to be dropped (they are replaced by `rep`). -/
def replaceAux (pat rep : List Char) : List Char → Nat → List Char
  | [], _ => []
  | _ :: cs, k + 1 => replaceAux pat rep cs k
  | c :: cs, 0 =>
    if pat <+: (c :: cs) then rep ++ replaceAux pat rep cs (pat.length - 1)
    else c :: replaceAux pat rep cs 0

/-- Replacement of every non-overlapping occurrence of `pat` by `rep`,
scanning left to right: `s.replace(pat, rep)` in Python.  An empty pattern
inserts `rep` at every position, as `str.replace` does. -/
def replaceAll (pat rep s : List Char) : List Char :=
  match pat with
  | [] => rep ++ s.foldr (fun c acc => c :: (rep ++ acc)) []
  | _ :: _ => replaceAux pat rep s 0

theorem countAux_drop (pat : List Char) :
    ∀ (s : List Char) (k : Nat), countAux pat s k = countAux pat (s.drop k) 0
  | [], _ => by simp [countAux]
  | _ :: _, 0 => rfl
  | c :: cs, k + 1 => by
    rw [List.drop_succ_cons]
    exact countAux_drop pat cs k

theorem replaceAux_drop (pat rep : List Char) :
    ∀ (s : List Char) (k : Nat),
      replaceAux pat rep s k = replaceAux pat rep (s.drop k) 0
  | [], _ => by simp [replaceAux]
  | _ :: _, 0 => rfl
  | c :: cs, k + 1 => by
    rw [List.drop_succ_cons]
    exact replaceAux_drop pat rep cs k

theorem countOccs_nil (p : Char) (ps : List Char) : countOccs (p :: ps) [] = 0 := rfl

theorem countOccs_cons (p c : Char) (ps cs : List Char) :
    countOccs (p :: ps) (c :: cs) =
      if (p :: ps) <+: (c :: cs) then 1 + countOccs (p :: ps) (cs.drop ps.length)
      else countOccs (p :: ps) cs := by
  show countAux (p :: ps) (c :: cs) 0 = _
  have h : countAux (p :: ps) (c :: cs) 0
      = if (p :: ps) <+: (c :: cs) then 1 + countAux (p :: ps) cs ps.length
        else countAux (p :: ps) cs 0 := rfl
  rw [h, countAux_drop (p :: ps) cs ps.length]
  rfl

theorem replaceAll_nil (p : Char) (ps rep : List Char) :
    replaceAll (p :: ps) rep [] = [] := rfl

theorem replaceAll_cons (p c : Char) (ps rep cs : List Char) :
    replaceAll (p :: ps) rep (c :: cs) =
      if (p :: ps) <+: (c :: cs) then
        rep ++ replaceAll (p :: ps) rep (cs.drop ps.length)
      else c :: replaceAll (p :: ps) rep cs := by
  show replaceAux (p :: ps) rep (c :: cs) 0 = _
  have h : replaceAux (p :: ps) rep (c :: cs) 0
      = if (p :: ps) <+: (c :: cs) then rep ++ replaceAux (p :: ps) rep cs ps.length
        else c :: replaceAux (p :: ps) rep cs 0 := rfl
  rw [h, replaceAux_drop (p :: ps) rep cs ps.length]
  rfl

example : countOccs oldModule oldModule = 1 := by decide
example : countOccs newModule oldModule = 0 := by decide
example : replaceAll oldModule newModule oldModule = newModule := by decide

/-- No occurrence of `pat` starts at any position of `s`. -/
def NoOcc (pat s : List Char) : Prop := ∀ i, ¬ pat <+: s.drop i

theorem noOcc_nil {pat : List Char} (hp : pat ≠ []) : NoOcc pat [] := by
  intro i h
  rw [List.drop_nil] at h
  exact hp (List.prefix_nil.mp h)

theorem noOcc_cons_iff {pat : List Char} {c : Char} {cs : List Char} :
    NoOcc pat (c :: cs) ↔ ¬ pat <+: (c :: cs) ∧ NoOcc pat cs := by
  constructor
  · intro h
    refine ⟨h 0, fun i hi => h (i + 1) ?_⟩
    rwa [List.drop_succ_cons]
  · rintro ⟨h0, h⟩ i hi
    match i with
    | 0 => exact h0 hi
    | i + 1 =>
      rw [List.drop_succ_cons] at hi
      exact h i hi

theorem NoOcc.drop {pat s : List Char} (h : NoOcc pat s) (k : Nat) :
    NoOcc pat (s.drop k) := by
  intro i hi
  rw [List.drop_drop] at hi
  exact h (k + i) hi

theorem countOccs_eq_zero_iff {pat : List Char} (hp : pat ≠ []) (s : List Char) :
    countOccs pat s = 0 ↔ NoOcc pat s := by
  obtain ⟨p, ps, rfl⟩ := List.exists_cons_of_ne_nil hp
  induction s with
  | nil =>
    exact ⟨fun _ => noOcc_nil hp, fun _ => countOccs_nil p ps⟩
  | cons c cs ih =>
    rw [countOccs_cons, noOcc_cons_iff]
    by_cases h : (p :: ps) <+: (c :: cs)
    · rw [if_pos h]
      constructor
      · intro h1; omega
      · rintro ⟨h1, _⟩; exact absurd h h1
    · rw [if_neg h, ih]
      exact ⟨fun h2 => ⟨h, h2⟩, fun h2 => h2.2⟩

theorem pref_of_pref_append_le {x t r : List Char}
    (h : x <+: t ++ r) (hle : x.length ≤ t.length) : x <+: t := by
  rcases List.prefix_or_prefix_of_prefix h (List.prefix_append t r) with h1 | h1
  · exact h1
  · have h2 : t = x := h1.eq_of_length_le hle
    rw [h2]

theorem append_pref_of_pref_append {x t r : List Char}
    (h : x <+: t ++ r) (hle : t.length ≤ x.length) : t <+: x := by
  rcases List.prefix_or_prefix_of_prefix h (List.prefix_append t r) with h1 | h1
  · have h2 : x = t := h1.eq_of_length_le hle
    rw [h2]
  · exact h1

theorem drop_ne_nil_of_lt {x : List Char} {j : Nat} (hj : j < x.length) :
    x.drop j ≠ [] := by
  intro h
  have := congrArg List.length h
  rw [List.length_drop] at this
  simp at this
  omega

/-- A nonempty proper tail `x.drop j` of a word `x` that, by `hB`, neither is
a prefix of `rep` nor has `rep` as a prefix, can be a prefix of the rewritten
text only where the rewritten text agrees with the source.  This is the key
boundary lemma: matches of such tails cannot begin inside an inserted `rep`
block. -/
theorem tail_pref_replaceAll (pat rep x : List Char) (hp : pat ≠ [])
    (hB : ∀ j, j < x.length → 1 ≤ j →
      ¬ (x.drop j <+: rep) ∧ ¬ (rep <+: x.drop j)) :
    ∀ (s : List Char) (j : Nat), j < x.length → 1 ≤ j →
      x.drop j <+: replaceAll pat rep s → x.drop j <+: s := by
  obtain ⟨p, ps, rfl⟩ := List.exists_cons_of_ne_nil hp
  intro s
  induction s with
  | nil =>
    intro j hj _ hpre
    rw [replaceAll_nil] at hpre
    exact absurd (List.prefix_nil.mp hpre) (drop_ne_nil_of_lt hj)
  | cons c cs ih =>
    intro j hj h1 hpre
    rw [replaceAll_cons] at hpre
    by_cases hm : (p :: ps) <+: (c :: cs)
    · rw [if_pos hm] at hpre
      rcases le_or_lt (x.drop j).length rep.length with hle | hlt
      · exact absurd (pref_of_pref_append_le hpre hle) (hB j hj h1).1
      · exact absurd (append_pref_of_pref_append hpre (Nat.le_of_lt hlt)) (hB j hj h1).2
    · rw [if_neg hm] at hpre
      cases hx : x.drop j with
      | nil => exact List.nil_prefix
      | cons d w =>
        rw [hx, List.cons_prefix_cons] at hpre
        obtain ⟨rfl, hw⟩ := hpre
        have hwx : x.drop (j + 1) = w := by
          have hdd : (x.drop j).drop 1 = x.drop (j + 1) := by
            rw [List.drop_drop]
          rw [← hdd, hx, List.drop_succ_cons, List.drop_zero]
        rcases Nat.lt_or_ge (j + 1) x.length with hj1 | hj1
        · have h2 := ih (j + 1) hj1 (by omega) (by rwa [hwx])
          exact List.cons_prefix_cons.mpr ⟨rfl, by rwa [hwx] at h2⟩
        · have hnil : w = [] := by rw [← hwx]; exact List.drop_eq_nil_of_le hj1
          rw [hnil]
          exact List.cons_prefix_cons.mpr ⟨rfl, List.nil_prefix⟩

theorem countOccs_of_pref (q : Char) (qs s : List Char) (h : (q :: qs) <+: s) :
    countOccs (q :: qs) s = 1 + countOccs (q :: qs) (s.drop (qs.length + 1)) := by
  cases s with
  | nil => exact absurd (List.prefix_nil.mp h) (by simp)
  | cons c cs =>
    rw [countOccs_cons, if_pos h, List.drop_succ_cons]

/-- After `replaceAll pat rep s` no occurrence of `pat` remains, provided
`pat` does not occur in `rep` (`hA1`), no tail of `rep` is a prefix of `pat`
(`hA2`), and no proper tail of `pat` interacts with `rep` at a block
boundary (`hB`).  All three side conditions hold for the concrete module
path strings and are discharged there by `decide`. -/
theorem noOcc_replaceAll (pat rep : List Char) (hp : pat ≠ [])
    (hA1 : NoOcc pat rep)
    (hA2 : ∀ j, j < rep.length → ¬ (rep.drop j <+: pat))
    (hB : ∀ j, j < pat.length → 1 ≤ j →
      ¬ (pat.drop j <+: rep) ∧ ¬ (rep <+: pat.drop j)) :
    ∀ s, NoOcc pat (replaceAll pat rep s) := by
  obtain ⟨p, ps, rfl⟩ := List.exists_cons_of_ne_nil hp
  have main : ∀ n, ∀ s : List Char, s.length ≤ n →
      NoOcc (p :: ps) (replaceAll (p :: ps) rep s) := by
    intro n
    induction n with
    | zero =>
      intro s hs
      have hnil : s = [] := List.eq_nil_of_length_eq_zero (Nat.le_zero.mp hs)
      subst hnil
      rw [replaceAll_nil]
      exact noOcc_nil hp
    | succ n ihn =>
      intro s hs
      match s with
      | [] =>
        rw [replaceAll_nil]
        exact noOcc_nil hp
      | c :: cs =>
        rw [replaceAll_cons]
        by_cases hm : (p :: ps) <+: (c :: cs)
        · rw [if_pos hm]
          have hR : NoOcc (p :: ps) (replaceAll (p :: ps) rep (cs.drop ps.length)) := by
            apply ihn
            rw [List.length_drop]
            simp only [List.length_cons] at hs
            omega
          intro i hpre
          rw [List.drop_append_eq_append_drop] at hpre
          rcases Nat.lt_or_ge i rep.length with hi | hi
          · have hz : i - rep.length = 0 := by omega
            rw [hz, List.drop_zero] at hpre
            rcases le_or_lt (p :: ps).length (rep.drop i).length with hle | hlt
            · exact hA1 i (pref_of_pref_append_le hpre hle)
            · exact hA2 i hi (append_pref_of_pref_append hpre (Nat.le_of_lt hlt))
          · have h0 : rep.drop i = [] := List.drop_eq_nil_of_le hi
            rw [h0, List.nil_append] at hpre
            exact hR _ hpre
        · rw [if_neg hm]
          have hR' : NoOcc (p :: ps) (replaceAll (p :: ps) rep cs) := by
            apply ihn
            simp only [List.length_cons] at hs
            omega
          rw [noOcc_cons_iff]
          refine ⟨?_, hR'⟩
          intro hpre
          rw [List.cons_prefix_cons] at hpre
          obtain ⟨rfl, hps⟩ := hpre
          cases ps with
          | nil =>
            exact hm (List.cons_prefix_cons.mpr ⟨rfl, List.nil_prefix⟩)
          | cons e es =>
            have h2 := tail_pref_replaceAll (p :: e :: es) rep (p :: e :: es) hp hB cs 1
              (by simp) (le_refl 1) (by simpa using hps)
            exact hm (List.cons_prefix_cons.mpr ⟨rfl, by simpa using h2⟩)
  exact fun s => main s.length s (le_refl _)

/-- Counting `rep` in the rewritten text: each replaced occurrence of `pat`
contributes exactly one occurrence of `rep`, provided `rep` did not occur in
the source (`hno`) and no proper tail of `rep` is a prefix of `rep` (`hBr`,
i.e. `rep` has no nontrivial border).  Side conditions are discharged by
`decide` at the concrete module path strings. -/
theorem countOccs_rep_replaceAll (pat rep : List Char) (hp : pat ≠ []) (hq : rep ≠ [])
    (hBr : ∀ j, j < rep.length → 1 ≤ j →
      ¬ (rep.drop j <+: rep) ∧ ¬ (rep <+: rep.drop j)) :
    ∀ s, NoOcc rep s →
      countOccs rep (replaceAll pat rep s) = countOccs pat s := by
  obtain ⟨p, ps, rfl⟩ := List.exists_cons_of_ne_nil hp
  obtain ⟨q, qs, rfl⟩ := List.exists_cons_of_ne_nil hq
  have main : ∀ n, ∀ s : List Char, s.length ≤ n → NoOcc (q :: qs) s →
      countOccs (q :: qs) (replaceAll (p :: ps) (q :: qs) s) = countOccs (p :: ps) s := by
    intro n
    induction n with
    | zero =>
      intro s hs _
      have hnil : s = [] := List.eq_nil_of_length_eq_zero (Nat.le_zero.mp hs)
      subst hnil
      rfl
    | succ n ihn =>
      intro s hs hno
      match s with
      | [] => rfl
      | c :: cs =>
        rw [replaceAll_cons]
        by_cases hm : (p :: ps) <+: (c :: cs)
        · rw [if_pos hm]
          rw [countOccs_of_pref q qs _ (List.prefix_append _ _)]
          have hleft : ((q :: qs) ++ replaceAll (p :: ps) (q :: qs) (cs.drop ps.length)).drop
              (qs.length + 1) = replaceAll (p :: ps) (q :: qs) (cs.drop ps.length) := by
            have : qs.length + 1 = (q :: qs).length := by simp
            rw [this, List.drop_left]
          rw [hleft]
          have hno' : NoOcc (q :: qs) (cs.drop ps.length) := by
            have h1 : NoOcc (q :: qs) cs := (noOcc_cons_iff.mp hno).2
            exact h1.drop ps.length
          have hrec := ihn (cs.drop ps.length)
            (by rw [List.length_drop]; simp only [List.length_cons] at hs; omega) hno'
          rw [hrec, countOccs_cons, if_pos hm]
        · rw [if_neg hm]
          have hnotq : ¬ (q :: qs) <+: (c :: replaceAll (p :: ps) (q :: qs) cs) := by
            intro hpre
            rw [List.cons_prefix_cons] at hpre
            obtain ⟨rfl, hqs⟩ := hpre
            cases qs with
            | nil =>
              have h3 : ([] : List Char) <+: cs := List.nil_prefix
              exact hno 0 (List.cons_prefix_cons.mpr ⟨rfl, h3⟩)
            | cons e es =>
              have h2 := tail_pref_replaceAll (p :: ps) (q :: e :: es) (q :: e :: es)
                hp hBr cs 1 (by simp only [List.length_cons]; omega) (le_refl 1) hqs
              have h3 : (e :: es) <+: cs := h2
              exact hno 0 (List.cons_prefix_cons.mpr ⟨rfl, h3⟩)
          have hcs : NoOcc (q :: qs) cs := (noOcc_cons_iff.mp hno).2
          have hrec := ihn cs (by simp only [List.length_cons] at hs; omega) hcs
          rw [countOccs_cons, if_neg hnotq, hrec, countOccs_cons, if_neg hm]
  exact fun s hno => main s.length s (le_refl _) hno

/-- The combined rewrite correctness at the concrete module path strings:
if the new path does not occur in `s`, then after `replaceAll` the old path
does not occur at all and the new path occurs exactly as often as the old
path occurred in `s`. -/
theorem rewrite_pair_correct (s : List Char) (hnew : countOccs newModule s = 0) :
    countOccs oldModule (replaceAll oldModule newModule s) = 0 ∧
    countOccs newModule (replaceAll oldModule newModule s) = countOccs oldModule s := by
  have hp : oldModule ≠ [] := by decide
  have hq : newModule ≠ [] := by decide
  have hA1 : NoOcc oldModule newModule :=
    (countOccs_eq_zero_iff hp newModule).mp (by decide)
  have hA2 : ∀ j, j < newModule.length → ¬ (newModule.drop j <+: oldModule) := by decide
  have hB : ∀ j, j < oldModule.length → 1 ≤ j →
      ¬ (oldModule.drop j <+: newModule) ∧ ¬ (newModule <+: oldModule.drop j) := by decide
  have hBr : ∀ j, j < newModule.length → 1 ≤ j →
      ¬ (newModule.drop j <+: newModule) ∧ ¬ (newModule <+: newModule.drop j) := by decide
  refine ⟨?_, ?_⟩
  · exact (countOccs_eq_zero_iff hp _).mpr (noOcc_replaceAll _ _ hp hA1 hA2 hB s)
  · exact countOccs_rep_replaceAll _ _ hp hq hBr s ((countOccs_eq_zero_iff hq s).mp hnew)

/-- Outcome of the primary read `open(filepath, encoding=utf-8).read()`:
success with decoded text, a `UnicodeDecodeError` (the only exception the
first `try` catches), or any other exception (`OSError` etc.), which the
first `try` does not catch. -/
inductive ReadResult where
  | ok (content : List Char)
  | decodeError
  | ioError
deriving DecidableEq, Repr

/-- A text encoding used by `replace_in_file`. -/
inductive Enc where
  | utf8
  | latin1
deriving DecidableEq, Repr

/-- Observable I/O behaviour of one file: the outcome of the primary UTF-8
read, the outcome of the fallback latin-1 read (`none` means the fallback
attempt raises, which the inner `except Exception` catches), and whether
writing the replaced text raises `UnicodeEncodeError` under each encoding. -/
structure FileIO where
  readUtf8 : ReadResult
  readLatin1 : Option (List Char)
  writeUtf8Fails : Bool
  writeLatin1Fails : Bool
deriving DecidableEq, Repr

/-- The counting/replacing/writing tail of `replace_in_file`, after a read
has produced `content` (lines 25-42 of the script): count occurrences; if
positive, replace and write back, trying UTF-8 first and latin-1 on a
`UnicodeEncodeError`; a failure of the latin-1 write is uncaught
(`Except.error`).  Returns the count and what was written with which
encoding (`none` = no write). -/
def replaceCore (old new content : List Char) (f : FileIO) :
    Except Unit (Nat × Option (Enc × List Char)) :=
  if 0 < countOccs old content then
    if f.writeUtf8Fails = false then
      Except.ok (countOccs old content, some (Enc.utf8, replaceAll old new content))
    else if f.writeLatin1Fails = false then
      Except.ok (countOccs old content, some (Enc.latin1, replaceAll old new content))
    else Except.error ()
  else Except.ok (countOccs old content, none)

/-- The whole of `replace_in_file`: primary UTF-8 read; on
`UnicodeDecodeError` a latin-1 fallback read whose own failure is caught,
reported, and turned into a return of 0; any other exception of the primary
read propagates (`Except.error`). -/
def replaceInFile (old new : List Char) (f : FileIO) :
    Except Unit (Nat × Option (Enc × List Char)) :=
  match f.readUtf8 with
  | ReadResult.ok content => replaceCore old new content f
  | ReadResult.decodeError =>
    match f.readLatin1 with
    | some content => replaceCore old new content f
    | none => Except.ok (0, none)
  | ReadResult.ioError => Except.error ()

/-- The decoded text `replace_in_file` ends up operating on, if any read
path succeeds. -/
def readTextOf (f : FileIO) : Option (List Char) :=
  match f.readUtf8 with
  | ReadResult.ok content => some content
  | ReadResult.decodeError => f.readLatin1
  | ReadResult.ioError => none

/-- The encoding that succeeded for reading, if any. -/
def readEncOf (f : FileIO) : Option Enc :=
  match f.readUtf8 with
  | ReadResult.ok _ => some Enc.utf8
  | ReadResult.decodeError => f.readLatin1.map (fun _ => Enc.latin1)
  | ReadResult.ioError => none

/-- The file text after the call: the written text if a write happened,
otherwise the original content. -/
def afterText (content : List Char) (w : Option (Enc × List Char)) : List Char :=
  match w with
  | some (_, c) => c
  | none => content

theorem replaceInFile_eq_core (old new : List Char) (f : FileIO) (content : List Char)
    (h : readTextOf f = some content) :
    replaceInFile old new f = replaceCore old new content f := by
  unfold replaceInFile
  unfold readTextOf at h
  cases hr : f.readUtf8 with
  | ok c => rw [hr] at h; injection h with h; rw [h]
  | decodeError =>
    rw [hr] at h
    cases hl : f.readLatin1 with
    | some c => rw [hl] at h; injection h with h; rw [h]
    | none => rw [hl] at h; exact absurd h (by simp)
  | ioError => rw [hr] at h; exact absurd h (by simp)

theorem countOccs_old_replaceAll_zero (s : List Char) :
    countOccs oldModule (replaceAll oldModule newModule s) = 0 := by
  have hp : oldModule ≠ [] := by decide
  have hA1 : NoOcc oldModule newModule :=
    (countOccs_eq_zero_iff hp newModule).mp (by decide)
  have hA2 : ∀ j, j < newModule.length → ¬ (newModule.drop j <+: oldModule) := by decide
  have hB : ∀ j, j < oldModule.length → 1 ≤ j →
      ¬ (oldModule.drop j <+: newModule) ∧ ¬ (newModule <+: oldModule.drop j) := by decide
  exact (countOccs_eq_zero_iff hp _).mpr (noOcc_replaceAll _ _ hp hA1 hA2 hB s)

/-- C1: for every file whose decoded text contains `N` non-overlapping
occurrences of the old module path and no occurrence of the new one, one
call of `replace_in_file` returns `N`, and afterwards the file text contains
0 occurrences of the old string and `N` occurrences of the new string. -/
theorem claim_C1 (f : FileIO) (content : List Char) (N : Nat)
    (hread : readTextOf f = some content)
    (hw : f.writeUtf8Fails = false)
    (hN : countOccs oldModule content = N)
    (hnew : countOccs newModule content = 0) :
    ∃ w, replaceInFile oldModule newModule f = Except.ok (N, w) ∧
      countOccs oldModule (afterText content w) = 0 ∧
      countOccs newModule (afterText content w) = N := by
  have hpair := rewrite_pair_correct content hnew
  rcases Nat.eq_zero_or_pos (countOccs oldModule content) with h0 | hpos
  · refine ⟨none, ?_, ?_, ?_⟩
    · rw [replaceInFile_eq_core _ _ f content hread]
      unfold replaceCore
      rw [if_neg (by omega), hN]
    · simp only [afterText]
      exact h0
    · simp only [afterText]
      rw [hnew, ← hN, h0]
  · refine ⟨some (Enc.utf8, replaceAll oldModule newModule content), ?_, ?_, ?_⟩
    · rw [replaceInFile_eq_core _ _ f content hread]
      unfold replaceCore
      rw [if_pos hpos, if_pos hw, hN]
    · simp only [afterText]
      exact hpair.1
    · simp only [afterText]
      rw [hpair.2, hN]

/-- A go.mod-like file: UTF-8 readable, containing exactly the old module
path, with no write failures. -/
def fileWithOld : FileIO := ⟨ReadResult.ok oldModule, none, false, false⟩

theorem claim_C1_witness :
    ∃ w, replaceInFile oldModule newModule fileWithOld = Except.ok (1, w) ∧
      countOccs oldModule (afterText oldModule w) = 0 ∧
      countOccs newModule (afterText oldModule w) = 1 :=
  claim_C1 fileWithOld oldModule 1 rfl rfl (by decide) (by decide)

/-- C3, as stated, is false: the script always attempts the UTF-8 write
first, even for a file that could only be read with the latin-1 fallback,
so the write encoding is not the encoding that succeeded for reading. -/
def latinOnlyFile : FileIO := ⟨ReadResult.decodeError, some oldModule, false, false⟩

/-- C3 counterexample: `latinOnlyFile` is read via the latin-1 fallback but,
its UTF-8 write succeeding, is written back as UTF-8. -/
theorem claim_C3_counterexample :
    ¬ (∀ (f : FileIO) (cnt : Nat) (e : Enc) (c : List Char),
        replaceInFile oldModule newModule f = Except.ok (cnt, some (e, c)) →
        0 < cnt → readEncOf f = some e) := by
  intro h
  have h1 : replaceInFile oldModule newModule latinOnlyFile
      = Except.ok (1, some (Enc.utf8, replaceAll oldModule newModule oldModule)) := rfl
  have h2 := h latinOnlyFile 1 Enc.utf8 (replaceAll oldModule newModule oldModule) h1
    (by omega)
  exact absurd h2 (by decide)

/-- C3 amended: whenever `replace_in_file` finds at least one occurrence it
writes the replaced text back trying the primary (UTF-8) encoding first,
regardless of which encoding succeeded for reading, and falls back to the
permissive latin-1 encoding exactly when the primary-encoding write fails. -/
theorem claim_C3 (f : FileIO) (content : List Char)
    (hread : readTextOf f = some content)
    (hpos : 0 < countOccs oldModule content) :
    (f.writeUtf8Fails = false →
      replaceInFile oldModule newModule f
        = Except.ok (countOccs oldModule content,
            some (Enc.utf8, replaceAll oldModule newModule content))) ∧
    (f.writeUtf8Fails = true → f.writeLatin1Fails = false →
      replaceInFile oldModule newModule f
        = Except.ok (countOccs oldModule content,
            some (Enc.latin1, replaceAll oldModule newModule content))) := by
  constructor
  · intro h
    rw [replaceInFile_eq_core _ _ f content hread]
    unfold replaceCore
    rw [if_pos hpos, if_pos h]
  · intro h1 h2
    rw [replaceInFile_eq_core _ _ f content hread]
    unfold replaceCore
    rw [if_pos hpos, h1, h2]
    simp

theorem claim_C3_witness :
    (latinOnlyFile.writeUtf8Fails = false →
      replaceInFile oldModule newModule latinOnlyFile
        = Except.ok (countOccs oldModule oldModule,
            some (Enc.utf8, replaceAll oldModule newModule oldModule))) ∧
    (latinOnlyFile.writeUtf8Fails = true → latinOnlyFile.writeLatin1Fails = false →
      replaceInFile oldModule newModule latinOnlyFile
        = Except.ok (countOccs oldModule oldModule,
            some (Enc.latin1, replaceAll oldModule newModule oldModule))) :=
  claim_C3 latinOnlyFile oldModule rfl (by decide)

/-- A file whose primary read raises a non-decode exception: the first
`try` of `replace_in_file` catches only `UnicodeDecodeError`, so this one
propagates. -/
def ioErrFile : FileIO := ⟨ReadResult.ioError, none, false, false⟩

/-- C4 counterexample: a file whose primary read fails with an I/O error
(not a decode error) makes `replace_in_file` raise instead of returning 0;
the claim that every unreadable file is non-fatal is false. -/
theorem claim_C4_counterexample :
    ¬ (∀ f : FileIO, readTextOf f = none →
        replaceInFile oldModule newModule f = Except.ok (0, none)) := by
  intro h
  have h1 := h ioErrFile rfl
  have h2 : (Except.error () : Except Unit (Nat × Option (Enc × List Char)))
      = Except.ok (0, none) := h1
  exact Except.noConfusion h2

/-- C4 amended: a file whose primary read fails with a decode error and
whose fallback latin-1 read then also fails is reported and treated as zero
replacements, non-fatally; but a non-decode exception of the primary read
propagates out of `replace_in_file` (see `claim_C4_counterexample`). -/
theorem claim_C4 (f : FileIO)
    (h1 : f.readUtf8 = ReadResult.decodeError)
    (h2 : f.readLatin1 = none) :
    replaceInFile oldModule newModule f = Except.ok (0, none) := by
  unfold replaceInFile
  rw [h1, h2]

/-- A file whose UTF-8 read raises a decode error and whose latin-1 read
attempt also raises. -/
def doublyUnreadable : FileIO := ⟨ReadResult.decodeError, none, false, false⟩

theorem claim_C4_witness :
    replaceInFile oldModule newModule doublyUnreadable = Except.ok (0, none) :=
  claim_C4 doublyUnreadable rfl rfl

/-- C6: idempotence.  Any file whose text is the output of a previous
rewrite pass yields zero replacements and no write on a second call with
the same old/new pair. -/
theorem claim_C6 (f : FileIO) (s : List Char)
    (hread : readTextOf f = some (replaceAll oldModule newModule s)) :
    replaceInFile oldModule newModule f = Except.ok (0, none) := by
  have hz := countOccs_old_replaceAll_zero s
  rw [replaceInFile_eq_core _ _ f (replaceAll oldModule newModule s) hread]
  unfold replaceCore
  rw [hz]
  simp

/-- A file holding the result of rewriting a text that was exactly the old
module path. -/
def rewrittenFile : FileIO :=
  ⟨ReadResult.ok (replaceAll oldModule newModule oldModule), none, false, false⟩

theorem claim_C6_witness :
    replaceInFile oldModule newModule rewrittenFile = Except.ok (0, none) :=
  claim_C6 rewrittenFile oldModule rfl

/-- C7: a file with zero occurrences of the old string yields return value
0 and no write at all, so the file is left byte-for-byte unchanged. -/
theorem claim_C7 (f : FileIO) (content : List Char)
    (hread : readTextOf f = some content)
    (h0 : countOccs oldModule content = 0) :
    replaceInFile oldModule newModule f = Except.ok (0, none) := by
  rw [replaceInFile_eq_core _ _ f content hread]
  unfold replaceCore
  rw [h0]
  simp

/-- A file whose content has no occurrence of the old module path. -/
def untouchedFile : FileIO := ⟨ReadResult.ok newModule, none, false, false⟩

theorem claim_C7_witness :
    replaceInFile oldModule newModule untouchedFile = Except.ok (0, none) :=
  claim_C7 untouchedFile newModule rfl (by decide)

/-- The pruned directory name (`dirs.remove('vendor')`). -/
def vendorName : List Char := "vendor".toList

/-- The source-file suffix filter (`file.endswith('.go')`). -/
def goSuffix : List Char := ".go".toList

/-- A file path: the directory components below the walk root, and the file
name. -/
structure FPath where
  dirs : List (List Char)
  name : List Char
deriving DecidableEq, Repr

/-- A directory tree, as a sequence of entries: `file` is a plain file,
`dir` a subdirectory with its own contents; `rest` is the remainder of the
same directory listing.  `os.walk` sees each directory listing as its
`files` and `dirs`. -/
inductive DirF where
  | nil
  | file (name : List Char) (rest : DirF)
  | dir (name : List Char) (contents : DirF) (rest : DirF)
deriving DecidableEq, Repr

/-- The `os.walk('.')` loop of `main` (used both at lines 67-74 and again at
lines 147-153): collect every file whose name ends in `.go`, recursing into
subdirectories except that the first directory named `vendor` in each
listing is removed (`if 'vendor' in dirs: dirs.remove('vendor')`);
`vendorSeen` records whether the removal already happened in the current
listing. -/
def goWalk : List (List Char) → Bool → DirF → List FPath
  | _, _, DirF.nil => []
  | acc, vs, DirF.file n rest =>
    (if goSuffix.isSuffixOf n then [⟨acc, n⟩] else []) ++ goWalk acc vs rest
  | acc, vs, DirF.dir n contents rest =>
    if vs = false ∧ n = vendorName then goWalk acc true rest
    else goWalk (acc ++ [n]) false contents ++ goWalk acc vs rest

/-- The subdirectory names of one directory listing (the `dirs` list that
`os.walk` yields for that directory). -/
def dirNames : DirF → List (List Char)
  | DirF.nil => []
  | DirF.file _ rest => dirNames rest
  | DirF.dir n _ rest => n :: dirNames rest

/-- Real directory listings never contain two entries with the same name;
this is the fragment of that fact the pruning argument needs: at every
level, at most one subdirectory is named `vendor`. -/
def noDupVendor : DirF → Bool
  | DirF.nil => true
  | DirF.file _ rest => noDupVendor rest
  | DirF.dir n contents rest =>
    noDupVendor contents && noDupVendor rest &&
      (if n = vendorName then decide (vendorName ∉ dirNames rest) else true)

/-- Every path the walk returns has a `.go`-suffixed file name. -/
theorem goWalk_names_go (d : DirF) :
    ∀ (acc : List (List Char)) (vs : Bool),
      ∀ p ∈ goWalk acc vs d, goSuffix.isSuffixOf p.name = true := by
  induction d with
  | nil =>
    intro acc vs p hp
    simp [goWalk] at hp
  | file n rest ih =>
    intro acc vs p hp
    rw [show goWalk acc vs (DirF.file n rest)
        = (if goSuffix.isSuffixOf n then [(⟨acc, n⟩ : FPath)] else [])
            ++ goWalk acc vs rest from rfl] at hp
    rcases List.mem_append.mp hp with h | h
    · by_cases hb : goSuffix.isSuffixOf n
      · rw [if_pos hb] at h
        simp at h
        rw [h]
        exact hb
      · rw [if_neg hb] at h
        simp at h
    · exact ih acc vs p h
  | dir n contents rest ihc ihr =>
    intro acc vs p hp
    rw [show goWalk acc vs (DirF.dir n contents rest)
        = if vs = false ∧ n = vendorName then goWalk acc true rest
          else goWalk (acc ++ [n]) false contents ++ goWalk acc vs rest from rfl] at hp
    by_cases hc : vs = false ∧ n = vendorName
    · rw [if_pos hc] at hp
      exact ihr acc true p hp
    · rw [if_neg hc] at hp
      rcases List.mem_append.mp hp with h | h
      · exact ihc (acc ++ [n]) false p h
      · exact ihr acc vs p h

/-- Vendor pruning: with at most one `vendor` entry per listing, no path the
walk returns passes through a directory named `vendor`; the second
conjunct handles the state after the one `vendor` entry of the current
listing has already been pruned. -/
theorem goWalk_vendor_free (d : DirF) :
    ∀ (acc : List (List Char)), noDupVendor d = true → vendorName ∉ acc →
      (∀ p ∈ goWalk acc false d, vendorName ∉ p.dirs) ∧
      (vendorName ∉ dirNames d → ∀ p ∈ goWalk acc true d, vendorName ∉ p.dirs) := by
  induction d with
  | nil =>
    intro acc _ _
    constructor
    · intro p hp
      simp [goWalk] at hp
    · intro _ p hp
      simp [goWalk] at hp
  | file n rest ih =>
    intro acc hnd hacc
    have hih := ih acc hnd hacc
    have hsplit : ∀ (vs : Bool) (p : FPath), p ∈ goWalk acc vs (DirF.file n rest) →
        p = ⟨acc, n⟩ ∨ p ∈ goWalk acc vs rest := by
      intro vs p hp
      rw [show goWalk acc vs (DirF.file n rest)
          = (if goSuffix.isSuffixOf n then [(⟨acc, n⟩ : FPath)] else [])
              ++ goWalk acc vs rest from rfl] at hp
      rcases List.mem_append.mp hp with h | h
      · by_cases hb : goSuffix.isSuffixOf n
        · rw [if_pos hb] at h
          simp at h
          exact Or.inl h
        · rw [if_neg hb] at h
          simp at h
      · exact Or.inr h
    constructor
    · intro p hp
      rcases hsplit false p hp with h | h
      · rw [h]
        exact hacc
      · exact hih.1 p h
    · intro hdn p hp
      rcases hsplit true p hp with h | h
      · rw [h]
        exact hacc
      · exact hih.2 hdn p h
  | dir n contents rest ihc ihr =>
    intro acc hnd hacc
    have hparts : noDupVendor contents = true ∧ noDupVendor rest = true ∧
        (n = vendorName → vendorName ∉ dirNames rest) := by
      have h := hnd
      rw [show noDupVendor (DirF.dir n contents rest)
          = (noDupVendor contents && noDupVendor rest &&
              (if n = vendorName then decide (vendorName ∉ dirNames rest) else true))
          from rfl] at h
      simp only [Bool.and_eq_true] at h
      obtain ⟨⟨h3, h4⟩, h2⟩ := h
      refine ⟨h3, h4, ?_⟩
      intro hv
      rw [if_pos hv] at h2
      exact of_decide_eq_true h2
    constructor
    · intro p hp
      rw [show goWalk acc false (DirF.dir n contents rest)
          = if false = false ∧ n = vendorName then goWalk acc true rest
            else goWalk (acc ++ [n]) false contents ++ goWalk acc false rest
          from rfl] at hp
      by_cases hv : n = vendorName
      · rw [if_pos ⟨rfl, hv⟩] at hp
        exact (ihr acc hparts.2.1 hacc).2 (hparts.2.2 hv) p hp
      · rw [if_neg (by simp [hv])] at hp
        rcases List.mem_append.mp hp with h | h
        · refine (ihc (acc ++ [n]) hparts.1 ?_).1 p h
          intro hmem
          rcases List.mem_append.mp hmem with h2 | h2
          · exact hacc h2
          · simp at h2
            exact hv h2.symm
        · exact (ihr acc hparts.2.1 hacc).1 p h
    · intro hdn p hp
      have hv : ¬ (n = vendorName) := by
        intro h
        apply hdn
        rw [show dirNames (DirF.dir n contents rest) = n :: dirNames rest from rfl, h]
        exact List.mem_cons_self _ _
      have hdn' : vendorName ∉ dirNames rest := by
        intro h
        apply hdn
        rw [show dirNames (DirF.dir n contents rest) = n :: dirNames rest from rfl]
        exact List.mem_cons_of_mem _ h
      rw [show goWalk acc true (DirF.dir n contents rest)
          = if true = false ∧ n = vendorName then goWalk acc true rest
            else goWalk (acc ++ [n]) false contents ++ goWalk acc true rest
          from rfl] at hp
      rw [if_neg (by simp)] at hp
      rcases List.mem_append.mp hp with h | h
      · refine (ihc (acc ++ [n]) hparts.1 ?_).1 p h
        intro hmem
        rcases List.mem_append.mp hmem with h2 | h2
        · exact hacc h2
        · simp at h2
          exact hv h2.symm
      · exact (ihr acc hparts.2.1 hacc).2 hdn' p h

/-- Disk state of a file after `replace_in_file` wrote text `c` with
encoding `e`.  A UTF-8-written text reads back identically under UTF-8.
For a latin-1-written text the UTF-8 readback depends on the raw bytes; we
model the readback as requiring the latin-1 fallback, which returns the
same characters.  No theorem below depends on the latin-1 readback choice:
the verification pass only distinguishes whether the primary read succeeds. -/
def afterWrite : Enc → List Char → FileIO
  | Enc.utf8, c => ⟨ReadResult.ok c, some c, false, false⟩
  | Enc.latin1, c => ⟨ReadResult.decodeError, some c, false, false⟩

/-- Name of the module manifest processed first (`go.mod`). -/
def goModName : List Char := "go.mod".toList

/-- Name of the readme processed after the Go files (`README.md`). -/
def readmeName : List Char := "README.md".toList

/-- The fixed list of configuration files from `main`. -/
def configNames : List (List Char) :=
  ["crush.json".toList, "schema.json".toList, "crush.json.example".toList]

/-- Build artifacts removed after a successful build. -/
def artifactNames : List (List Char) :=
  ["main.exe".toList, "crush".toList, "crush.exe".toList]

/-- A root-level path, as used for the manifest, readme and config files. -/
def rootPath (n : List Char) : FPath := ⟨[], n⟩

/-- The external world of one run: the directory tree, the per-file I/O
behaviour, `os.path.exists` for root-level names, the exit statuses of
`go mod tidy` and `go build` (`none` = `FileNotFoundError`), and which
build artifacts exist. -/
structure Env where
  tree : DirF
  fs : FPath → FileIO
  fileExists : List Char → Bool
  tidy : Option Int
  build : Option Int
  artifactExists : List Char → Bool

/-- Mutable state of the rewrite phase: the evolving file system, whether
an uncaught exception has been raised, and the counters and printed
modification reports of `main`. -/
structure St where
  fs : FPath → FileIO
  crashed : Bool
  filesModified : Nat
  totalReplacements : Nat
  reports : List (FPath × Nat)
  touched : List FPath

/-- One `replace_in_file` call as `main` performs it: on an uncaught
exception the run is dead (`crashed`); otherwise the counters, the report
list and the file system are updated exactly when the returned count is
positive (lines 56-60, 79-85, 90-94, 101-105 of the script). -/
def processPath (st : St) (p : FPath) : St :=
  if st.crashed then st
  else
    match replaceInFile oldModule newModule (st.fs p) with
    | Except.error _ => { st with crashed := true, touched := st.touched ++ [p] }
    | Except.ok (cnt, w) =>
      { fs := fun q => match w with
          | some (e, c) => if q = p then afterWrite e c else st.fs q
          | none => st.fs q
        crashed := false
        filesModified := if 0 < cnt then st.filesModified + 1 else st.filesModified
        totalReplacements :=
          if 0 < cnt then st.totalReplacements + cnt else st.totalReplacements
        reports := if 0 < cnt then st.reports ++ [(p, cnt)] else st.reports
        touched := st.touched ++ [p] }

/-- Conditional processing of a root-level file (`if os.path.exists(...)`). -/
def processIfExists (env : Env) (st : St) (n : List Char) : St :=
  if env.fileExists n then processPath st (rootPath n) else st

/-- Everything observable about one finished run of `main`. -/
structure MainResult where
  exitCode : Nat
  crashed : Bool
  tidyInvoked : Bool
  buildInvoked : Bool
  filesModified : Nat
  totalReplacements : Nat
  reports : List (FPath × Nat)
  touched : List FPath
  verifRan : Bool
  scanned : List FPath
  remaining : Nat
  warned : Bool
  artifactsRemoved : List (List Char)
  fsAfter : FPath → FileIO

/-- Contribution of one scanned file to the verification count
(lines 154-159): the count of the old path if the UTF-8 read succeeds, and
0 under the bare `except: pass` otherwise. -/
def verifContrib (f : FileIO) : Nat :=
  match f.readUtf8 with
  | ReadResult.ok c => countOccs oldModule c
  | ReadResult.decodeError => 0
  | ReadResult.ioError => 0

/-- A run that ends with exit status 1 (either a `return 1` of `main` or an
uncaught exception, which also makes the interpreter exit with status 1):
no verification pass, no artifact cleanup. -/
def finishFail (st : St) (ti bi : Bool) : MainResult :=
  { exitCode := 1, crashed := st.crashed, tidyInvoked := ti, buildInvoked := bi,
    filesModified := st.filesModified, totalReplacements := st.totalReplacements,
    reports := st.reports, touched := st.touched,
    verifRan := false, scanned := [], remaining := 0, warned := false,
    artifactsRemoved := [], fsAfter := st.fs }

/-- The tail of `main` after both external commands succeeded: remove the
existing build artifacts, re-walk the tree with the same pruning, sum the
residual occurrence counts over the `.go` files, warn iff the sum is
nonzero, and return 0. -/
def mkSuccess (env : Env) (st : St) : MainResult :=
  { exitCode := 0, crashed := false, tidyInvoked := true, buildInvoked := true,
    filesModified := st.filesModified, totalReplacements := st.totalReplacements,
    reports := st.reports,
    touched := st.touched ++ goWalk [] false env.tree,
    verifRan := true, scanned := goWalk [] false env.tree,
    remaining := ((goWalk [] false env.tree).map (fun p => verifContrib (st.fs p))).sum,
    warned :=
      decide (((goWalk [] false env.tree).map (fun p => verifContrib (st.fs p))).sum ≠ 0),
    artifactsRemoved := artifactNames.filter env.artifactExists,
    fsAfter := st.fs }

/-- The `go build` step (lines 120-138): `FileNotFoundError` or a nonzero
status aborts with exit 1; on success the run proceeds to cleanup and
verification. -/
def runBuild (env : Env) (st : St) : Option Int → MainResult
  | none => finishFail st true true
  | some rb => if rb = 0 then mkSuccess env st else finishFail st true true

/-- The `go mod tidy` step (lines 107-118): `FileNotFoundError` or a
nonzero status aborts with exit 1 before the build is ever attempted. -/
def runTidy (env : Env) (st : St) : Option Int → MainResult
  | none => finishFail st true false
  | some rc => if rc = 0 then runBuild env st env.build else finishFail st true false

/-- The rewrite phase of `main`: `go.mod` if it exists, every collected
`.go` file, `README.md` if it exists, then the listed config files. -/
def filesPhase (env : Env) : St :=
  configNames.foldl (processIfExists env)
    (processIfExists env
      ((goWalk [] false env.tree).foldl processPath
        (processIfExists env ⟨env.fs, false, 0, 0, [], []⟩ goModName))
      readmeName)

/-- The whole of `main`, composed of the rewrite phase and the external
command/verification tail. -/
def runMain (env : Env) : MainResult :=
  if (filesPhase env).crashed then finishFail (filesPhase env) false false
  else runTidy env (filesPhase env) env.tidy

theorem processPath_touched (st : St) (p : FPath) :
    ∀ q ∈ (processPath st p).touched, q ∈ st.touched ∨ q = p := by
  intro q hq
  have hq2 : q ∈ st.touched ++ [p] := by
    unfold processPath at hq
    by_cases hc : st.crashed
    · rw [if_pos hc] at hq
      exact List.mem_append.mpr (Or.inl hq)
    · rw [if_neg hc] at hq
      cases hres : replaceInFile oldModule newModule (st.fs p) with
      | error e =>
        rw [hres] at hq
        exact hq
      | ok pr =>
        obtain ⟨cnt, w⟩ := pr
        rw [hres] at hq
        exact hq
  rcases List.mem_append.mp hq2 with h | h
  · exact Or.inl h
  · simp at h
    exact Or.inr h

theorem foldl_touched (l : List FPath) :
    ∀ (st : St), ∀ q ∈ (l.foldl processPath st).touched, q ∈ st.touched ∨ q ∈ l := by
  induction l with
  | nil =>
    intro st q hq
    exact Or.inl hq
  | cons p ps ih =>
    intro st q hq
    rcases ih (processPath st p) q hq with h | h
    · rcases processPath_touched st p q h with h2 | h2
      · exact Or.inl h2
      · exact Or.inr (by rw [h2]; exact List.mem_cons_self _ _)
    · exact Or.inr (List.mem_cons_of_mem _ h)

theorem processIfExists_touched (env : Env) (st : St) (n : List Char) :
    ∀ q ∈ (processIfExists env st n).touched, q ∈ st.touched ∨ q = rootPath n := by
  intro q hq
  unfold processIfExists at hq
  by_cases hc : env.fileExists n = true
  · rw [if_pos hc] at hq
    exact processPath_touched st (rootPath n) q hq
  · rw [if_neg hc] at hq
    exact Or.inl hq

theorem foldl_ifExists_touched (env : Env) (names : List (List Char)) :
    ∀ (st : St), ∀ q ∈ (names.foldl (processIfExists env) st).touched,
      q ∈ st.touched ∨ ∃ n ∈ names, q = rootPath n := by
  induction names with
  | nil =>
    intro st q hq
    exact Or.inl hq
  | cons n ns ih =>
    intro st q hq
    rcases ih (processIfExists env st n) q hq with h | h
    · rcases processIfExists_touched env st n q h with h2 | h2
      · exact Or.inl h2
      · exact Or.inr ⟨n, List.mem_cons_self _ _, h2⟩
    · obtain ⟨m, hm, h2⟩ := h
      exact Or.inr ⟨m, List.mem_cons_of_mem _ hm, h2⟩

theorem filesPhase_touched (env : Env) :
    ∀ q ∈ (filesPhase env).touched,
      q = rootPath goModName ∨ q ∈ goWalk [] false env.tree ∨
      q = rootPath readmeName ∨ ∃ n ∈ configNames, q = rootPath n := by
  intro q hq
  unfold filesPhase at hq
  rcases foldl_ifExists_touched env configNames _ q hq with h | h
  · rcases processIfExists_touched env _ readmeName q h with h | h
    · rcases foldl_touched (goWalk [] false env.tree) _ q h with h | h
      · rcases processIfExists_touched env _ goModName q h with h | h
        · exact absurd h (List.not_mem_nil q)
        · exact Or.inl h
      · exact Or.inr (Or.inl h)
    · exact Or.inr (Or.inr (Or.inl h))
  · exact Or.inr (Or.inr (Or.inr h))

theorem runMain_cases (env : Env) :
    runMain env = finishFail (filesPhase env) false false ∨
    runMain env = finishFail (filesPhase env) true false ∨
    runMain env = finishFail (filesPhase env) true true ∨
    runMain env = mkSuccess env (filesPhase env) := by
  unfold runMain
  by_cases hc : (filesPhase env).crashed
  · rw [if_pos hc]
    exact Or.inl rfl
  · rw [if_neg hc]
    cases ht : env.tidy with
    | none =>
      simp only [runTidy]
      exact Or.inr (Or.inl trivial)
    | some rc =>
      simp only [runTidy]
      by_cases hrc : rc = 0
      · rw [if_pos hrc]
        cases hb : env.build with
        | none =>
          simp only [runBuild]
          exact Or.inr (Or.inr (Or.inl trivial))
        | some rb =>
          simp only [runBuild]
          by_cases hrb : rb = 0
          · rw [if_pos hrb]
            exact Or.inr (Or.inr (Or.inr rfl))
          · rw [if_neg hrb]
            exact Or.inr (Or.inr (Or.inl rfl))
      · rw [if_neg hrc]
        exact Or.inr (Or.inl rfl)

/-- The run-summary invariant of the spec: every printed modification
report has a positive count, `files_modified` counts the reports, and
`total_replacements` sums them. -/
def StInv (st : St) : Prop :=
  (∀ e ∈ st.reports, 0 < e.2) ∧
  st.filesModified = st.reports.length ∧
  st.totalReplacements = (st.reports.map Prod.snd).sum

theorem processPath_fields (st : St) (p : FPath) (hc : ¬ st.crashed = true)
    (cnt : Nat) (w : Option (Enc × List Char))
    (hres : replaceInFile oldModule newModule (st.fs p) = Except.ok (cnt, w)) :
    (processPath st p).reports
        = (if 0 < cnt then st.reports ++ [(p, cnt)] else st.reports) ∧
    (processPath st p).filesModified
        = (if 0 < cnt then st.filesModified + 1 else st.filesModified) ∧
    (processPath st p).totalReplacements
        = (if 0 < cnt then st.totalReplacements + cnt else st.totalReplacements) := by
  unfold processPath
  rw [if_neg hc, hres]
  exact ⟨rfl, rfl, rfl⟩

theorem stInv_processPath (st : St) (p : FPath) (h : StInv st) :
    StInv (processPath st p) := by
  by_cases hc : st.crashed
  · unfold processPath
    rw [if_pos hc]
    exact h
  · cases hres : replaceInFile oldModule newModule (st.fs p) with
    | error e =>
      have hfields : (processPath st p).reports = st.reports ∧
          (processPath st p).filesModified = st.filesModified ∧
          (processPath st p).totalReplacements = st.totalReplacements := by
        unfold processPath
        rw [if_neg hc, hres]
        exact ⟨rfl, rfl, rfl⟩
      obtain ⟨h1, h2, h3⟩ := hfields
      refine ⟨?_, ?_, ?_⟩
      · intro e2 he
        rw [h1] at he
        exact h.1 e2 he
      · rw [h2, h1]
        exact h.2.1
      · rw [h3, h1]
        exact h.2.2
    | ok pr =>
      obtain ⟨cnt, w⟩ := pr
      obtain ⟨h1, h2, h3⟩ := processPath_fields st p hc cnt w hres
      by_cases hcnt : 0 < cnt
      · rw [if_pos hcnt] at h1 h2 h3
        refine ⟨?_, ?_, ?_⟩
        · intro e2 he
          rw [h1] at he
          rcases List.mem_append.mp he with h4 | h4
          · exact h.1 e2 h4
          · simp at h4
            rw [h4]
            exact hcnt
        · rw [h2, h1, List.length_append, h.2.1]
          simp
        · rw [h3, h1, List.map_append, List.sum_append, h.2.2]
          simp
      · rw [if_neg hcnt] at h1 h2 h3
        refine ⟨?_, ?_, ?_⟩
        · intro e2 he
          rw [h1] at he
          exact h.1 e2 he
        · rw [h2, h1]
          exact h.2.1
        · rw [h3, h1]
          exact h.2.2

theorem stInv_foldl (l : List FPath) :
    ∀ (st : St), StInv st → StInv (l.foldl processPath st) := by
  induction l with
  | nil =>
    intro st h
    exact h
  | cons p ps ih =>
    intro st h
    exact ih (processPath st p) (stInv_processPath st p h)

theorem stInv_processIfExists (env : Env) (st : St) (n : List Char) (h : StInv st) :
    StInv (processIfExists env st n) := by
  unfold processIfExists
  by_cases hc : env.fileExists n = true
  · rw [if_pos hc]
    exact stInv_processPath st (rootPath n) h
  · rw [if_neg hc]
    exact h

theorem stInv_foldl_ifExists (env : Env) (names : List (List Char)) :
    ∀ (st : St), StInv st → StInv (names.foldl (processIfExists env) st) := by
  induction names with
  | nil =>
    intro st h
    exact h
  | cons n ns ih =>
    intro st h
    exact ih (processIfExists env st n) (stInv_processIfExists env st n h)

theorem stInv_filesPhase (env : Env) : StInv (filesPhase env) := by
  unfold filesPhase
  apply stInv_foldl_ifExists
  apply stInv_processIfExists
  apply stInv_foldl
  apply stInv_processIfExists
  exact ⟨fun e he => absurd he (List.not_mem_nil e), rfl, rfl⟩

/-- C5: whenever the dependency-tidy command exits with a nonzero status,
the build command is never invoked and the process exits with code 1. -/
theorem claim_C5 (env : Env) (rc : Int) (ht : env.tidy = some rc) (hrc : rc ≠ 0) :
    (runMain env).buildInvoked = false ∧ (runMain env).exitCode = 1 := by
  unfold runMain
  by_cases hc : (filesPhase env).crashed
  · rw [if_pos hc]
    exact ⟨rfl, rfl⟩
  · rw [if_neg hc, ht]
    simp only [runTidy]
    rw [if_neg hrc]
    exact ⟨rfl, rfl⟩

/-- C2: if both external commands succeed, the tree is re-scanned with the
same pruned walk, the warning is printed exactly when residual occurrences
remain, and the warning is non-fatal: the exit code is 0 either way. -/
theorem claim_C2 (env : Env) (hc : (runMain env).crashed = false)
    (ht : env.tidy = some 0) (hb : env.build = some 0) :
    (runMain env).exitCode = 0 ∧ (runMain env).verifRan = true ∧
    (runMain env).scanned = goWalk [] false env.tree ∧
    ((runMain env).warned = true ↔ (runMain env).remaining ≠ 0) := by
  have hcr : ¬ (filesPhase env).crashed = true := by
    cases hcc : (filesPhase env).crashed with
    | false => simp
    | true =>
      exfalso
      unfold runMain at hc
      rw [if_pos hcc] at hc
      have h2 : (filesPhase env).crashed = false := hc
      rw [hcc] at h2
      simp at h2
  unfold runMain
  rw [if_neg hcr, ht]
  simp only [runTidy]
  rw [if_pos trivial, hb]
  simp only [runBuild]
  rw [if_pos trivial]
  refine ⟨rfl, rfl, rfl, ?_⟩
  constructor
  · intro hw
    exact of_decide_eq_true hw
  · intro hr
    exact decide_eq_true hr

/-- C8: with at most one `vendor` entry per directory listing (true of any
real file system), no file the run ever reads or writes — in the rewrite
walk, the fixed root-level files, or the verification re-walk — lies under
a pruned `vendor` directory. -/
theorem claim_C8 (env : Env) (hnd : noDupVendor env.tree = true) :
    ∀ p ∈ (runMain env).touched, vendorName ∉ p.dirs := by
  have hwalk := (goWalk_vendor_free env.tree [] hnd (List.not_mem_nil _)).1
  have hfp : ∀ q ∈ (filesPhase env).touched, vendorName ∉ q.dirs := by
    intro q hq
    rcases filesPhase_touched env q hq with h | h | h | ⟨n, _, h⟩
    · rw [h]
      exact List.not_mem_nil _
    · exact hwalk q h
    · rw [h]
      exact List.not_mem_nil _
    · rw [h]
      exact List.not_mem_nil _
  intro p hp
  rcases runMain_cases env with h | h | h | h
  · rw [h] at hp
    exact hfp p hp
  · rw [h] at hp
    exact hfp p hp
  · rw [h] at hp
    exact hfp p hp
  · rw [h] at hp
    have hp2 : p ∈ (filesPhase env).touched ++ goWalk [] false env.tree := hp
    rcases List.mem_append.mp hp2 with h2 | h2
    · exact hfp p h2
    · exact hwalk p h2

/-- C9: the run-summary invariant.  Every modification report carries a
positive replacement count, and the two counters are exactly the number of
reported files and the sum of their counts, so a file is reported as
modified only if its count is positive. -/
theorem claim_C9 (env : Env) :
    (∀ e ∈ (runMain env).reports, 0 < e.2) ∧
    (runMain env).filesModified = (runMain env).reports.length ∧
    (runMain env).totalReplacements = ((runMain env).reports.map Prod.snd).sum := by
  have hinv := stInv_filesPhase env
  rcases runMain_cases env with h | h | h | h <;> rw [h] <;> exact hinv

/-- C10: the verification re-scan examines exactly the `.go`-named files of
the pruned walk — the manifest, readme and config files are never
re-checked — and a file whose primary read raises contributes zero to the
residual count under the bare `except: pass`. -/
theorem claim_C10 (env : Env) (hv : (runMain env).verifRan = true) :
    (∀ p ∈ (runMain env).scanned, goSuffix.isSuffixOf p.name = true) ∧
    rootPath goModName ∉ (runMain env).scanned ∧
    rootPath readmeName ∉ (runMain env).scanned ∧
    (∀ n ∈ configNames, rootPath n ∉ (runMain env).scanned) ∧
    (runMain env).remaining
      = (((runMain env).scanned).map (fun p => verifContrib ((runMain env).fsAfter p))).sum ∧
    (∀ f : FileIO, f.readUtf8 = ReadResult.decodeError ∨ f.readUtf8 = ReadResult.ioError →
      verifContrib f = 0) := by
  have hmk : runMain env = mkSuccess env (filesPhase env) := by
    rcases runMain_cases env with h | h | h | h
    · exfalso
      rw [h] at hv
      have h2 : (false : Bool) = true := hv
      exact Bool.noConfusion h2
    · exfalso
      rw [h] at hv
      have h2 : (false : Bool) = true := hv
      exact Bool.noConfusion h2
    · exfalso
      rw [h] at hv
      have h2 : (false : Bool) = true := hv
      exact Bool.noConfusion h2
    · exact h
  rw [hmk]
  have hnames := goWalk_names_go env.tree [] false
  refine ⟨?_, ?_, ?_, ?_, rfl, ?_⟩
  · intro p hp
    exact hnames p hp
  · intro hmem
    have h2 := hnames _ hmem
    exact absurd h2 (by decide)
  · intro hmem
    have h2 := hnames _ hmem
    exact absurd h2 (by decide)
  · intro n hn hmem
    have h2 := hnames _ hmem
    simp [configNames] at hn
    rcases hn with h3 | h3 | h3 <;> rw [h3] at h2 <;> exact absurd h2 (by decide)
  · intro f hf
    rcases hf with h | h <;> simp [verifContrib, h]

/-- A small sample tree: a `src` directory with one Go file, a `vendor`
directory with one Go file (to be pruned), and one Go file at the root. -/
def sampleTree : DirF :=
  DirF.dir "src".toList (DirF.file "m.go".toList DirF.nil)
    (DirF.dir "vendor".toList (DirF.file "v.go".toList DirF.nil)
      (DirF.file "root.go".toList DirF.nil))

/-- A sample environment: `go.mod` contains the old path once, every other
file contains none, and both external commands succeed. -/
def sampleEnv : Env :=
  { tree := sampleTree
    fs := fun p => if p = rootPath goModName then fileWithOld else untouchedFile
    fileExists := fun n => n == goModName
    tidy := some 0
    build := some 0
    artifactExists := fun _ => false }

/-- The sample environment with a failing dependency-tidy command. -/
def tidyFailEnv : Env :=
  { tree := sampleTree
    fs := fun p => if p = rootPath goModName then fileWithOld else untouchedFile
    fileExists := fun n => n == goModName
    tidy := some 1
    build := some 0
    artifactExists := fun _ => false }

theorem claim_C5_witness :
    (runMain tidyFailEnv).buildInvoked = false ∧ (runMain tidyFailEnv).exitCode = 1 :=
  claim_C5 tidyFailEnv 1 rfl (by decide)

theorem claim_C2_witness :
    (runMain sampleEnv).exitCode = 0 ∧ (runMain sampleEnv).verifRan = true ∧
    (runMain sampleEnv).scanned = goWalk [] false sampleEnv.tree ∧
    ((runMain sampleEnv).warned = true ↔ (runMain sampleEnv).remaining ≠ 0) :=
  claim_C2 sampleEnv (by decide) rfl rfl

theorem claim_C8_witness :
    vendorName ∉ (FPath.mk ["src".toList] "m.go".toList).dirs :=
  claim_C8 sampleEnv (by decide) ⟨["src".toList], "m.go".toList⟩ (by decide)

theorem claim_C9_witness :
    0 < (rootPath goModName, 1).2 ∧
    (runMain sampleEnv).filesModified = (runMain sampleEnv).reports.length :=
  ⟨(claim_C9 sampleEnv).1 (rootPath goModName, 1) (by decide), (claim_C9 sampleEnv).2.1⟩

theorem claim_C10_witness :
    rootPath goModName ∉ (runMain sampleEnv).scanned :=
  (claim_C10 sampleEnv (by decide)).2.1
